import Mathlib

/-!
Verification development for the geogames repository (neighbor-countries quiz).

The definitions below are a shallow embedding of `src/data.js` and
`src/game.js`.  JavaScript objects used as code-keyed maps are embedded as
association lists in entry order, JS `Set` objects as duplicate-free lists in
insertion order, JS numbers as `Nat`/`Int`, and the module-global data tables
are passed explicitly as parameters.  Fallible operations return the state
paired with `Except`/`Bool` results mirroring the `{success, error}` records
of the source.
-/

namespace GeoGames

/-! ### Character-level helpers for `normalizeName` (data.js)

`normalizeName` in data.js is
`str.toLowerCase().normalize('NFD').replace(/[̀-ͯ]/g, '')
  .replace(/[^\w\s]/g, '').replace(/\s+/g, ' ').trim()`.
`jsToLower` models `String.prototype.toLowerCase` on the ASCII and Latin-1
letter repertoire used by the country data; `nfdChar` models canonical NFD
decomposition for the precomposed Latin letters occurring there (all other
characters decompose to themselves). -/

def jsToLower (c : Char) : Char :=
  if 'A' ≤ c ∧ c ≤ 'Z' then Char.ofNat (c.toNat + 32)
  else if 0xC0 ≤ c.toNat ∧ c.toNat ≤ 0xDE ∧ c.toNat ≠ 0xD7 then Char.ofNat (c.toNat + 0x20)
  else c

def nfdChar (c : Char) : List Char :=
  match c with
  | 'à' => ['a', '̀']
  | 'á' => ['a', '́']
  | 'â' => ['a', '̂']
  | 'ã' => ['a', '̃']
  | 'ä' => ['a', '̈']
  | 'å' => ['a', '̊']
  | 'ç' => ['c', '̧']
  | 'è' => ['e', '̀']
  | 'é' => ['e', '́']
  | 'ê' => ['e', '̂']
  | 'ë' => ['e', '̈']
  | 'ì' => ['i', '̀']
  | 'í' => ['i', '́']
  | 'î' => ['i', '̂']
  | 'ï' => ['i', '̈']
  | 'ñ' => ['n', '̃']
  | 'ò' => ['o', '̀']
  | 'ó' => ['o', '́']
  | 'ô' => ['o', '̂']
  | 'õ' => ['o', '̃']
  | 'ö' => ['o', '̈']
  | 'ù' => ['u', '̀']
  | 'ú' => ['u', '́']
  | 'û' => ['u', '̂']
  | 'ü' => ['u', '̈']
  | 'ý' => ['y', '́']
  | 'ÿ' => ['y', '̈']
  | _ => [c]

/-- The combining-mark range `[̀-ͯ]` removed by `normalizeName`. -/
def isCombiningMark (c : Char) : Bool :=
  0x300 ≤ c.toNat && c.toNat ≤ 0x36F

/-- JS regex `\w`, i.e. `[A-Za-z0-9_]`. -/
def isWordChar (c : Char) : Bool :=
  ('a' ≤ c && c ≤ 'z') || ('A' ≤ c && c ≤ 'Z') || ('0' ≤ c && c ≤ '9') || c = '_'

/-- JS regex `\s` (also the set trimmed by `String.prototype.trim`). -/
def isJsSpace (c : Char) : Bool :=
  c = ' ' || c = '\t' || c = '\n' || c.toNat = 11 || c.toNat = 12 || c = '\r' ||
  c.toNat = 0xA0 || c.toNat = 0x1680 ||
  (0x2000 ≤ c.toNat && c.toNat ≤ 0x200A) ||
  c.toNat = 0x2028 || c.toNat = 0x2029 || c.toNat = 0x202F ||
  c.toNat = 0x205F || c.toNat = 0x3000 || c.toNat = 0xFEFF

/-- The step `.replace` with regex `\s+`: each maximal run of whitespace becomes one space. -/
def collapseWS : List Char → List Char
  | [] => []
  | [c] => if isJsSpace c then [' '] else [c]
  | c₁ :: c₂ :: rest =>
    if isJsSpace c₁ then
      if isJsSpace c₂ then collapseWS (c₂ :: rest)
      else ' ' :: collapseWS (c₂ :: rest)
    else c₁ :: collapseWS (c₂ :: rest)

/-- The step `.trim()`: strip leading and trailing whitespace. -/
def jsTrim (l : List Char) : List Char :=
  (((l.dropWhile isJsSpace).reverse).dropWhile isJsSpace).reverse

/-- data.js `normalizeName`, step for step. -/
def normalizeName (s : String) : String :=
  let step1 := s.data.map jsToLower
  let step2 := step1.flatMap nfdChar
  let step3 := step2.filter (fun c => !isCombiningMark c)
  let step4 := step3.filter (fun c => isWordChar c || isJsSpace c)
  String.mk (jsTrim (collapseWS step4))

/-! ### Country directory (data.js) -/

/-- One record of `countries.json`: the data pipeline stores
`{code, name, aliases}` under the key `code`. -/
structure Country where
  code : String
  name : String
  aliases : List String
deriving Repr, DecidableEq

/-- The `countriesData` object as an association list in entry order. -/
abbrev CountryTable := List (String × Country)

/-- The `neighborsData` object as an association list in entry order. -/
abbrev NeighborTable := List (String × List String)

/-- JS property access `countriesData[code]`. -/
def tableGet (t : CountryTable) (code : String) : Option Country :=
  (t.find? (fun p => p.1 == code)).map (fun p => p.2)

/-- data.js `getNeighbors`: `neighborsData[countryCode] || []`. -/
def getNeighbors (nt : NeighborTable) (code : String) : List String :=
  ((nt.find? (fun p => p.1 == code)).map (fun p => p.2)).getD []

/-- The per-country test of data.js `findCountryByName`: the normalized
canonical name, or some normalized alias, equals the normalized input. -/
def countryMatches (normalized : String) (c : Country) : Bool :=
  normalizeName c.name == normalized ||
    c.aliases.any (fun a => normalizeName a == normalized)

/-- data.js `findCountryByName`: first country (in `Object.values` order)
whose normalized name or alias equals the normalized input. -/
def findCountryByName (name : String) (countries : List Country) : Option Country :=
  countries.find? (countryMatches (normalizeName name))

/-- JS `String.prototype.includes`: substring containment. -/
def containsSub (pat : List Char) : List Char → Bool
  | [] => pat.isEmpty
  | c :: t => pat.isPrefixOf (c :: t) || containsSub pat t

def strIncludes (s pat : String) : Bool :=
  containsSub pat.data s.data

/-- The total preorder induced by the comparator of data.js
`searchCountries`: exact normalized-name matches first, then ascending
normalized-name length.  `searchLeB q a b` holds iff the comparator returns
a value `≤ 0` on `(a, b)`. -/
def searchLeB (q : String) (a b : Country) : Bool :=
  let ea := normalizeName a.name == q
  let eb := normalizeName b.name == q
  if ea == eb then (normalizeName a.name).length ≤ (normalizeName b.name).length
  else ea

def searchLe (q : String) (a b : Country) : Prop :=
  searchLeB q a b = true

instance (q : String) : DecidableRel (searchLe q) :=
  fun a b => instDecidableEqBool (searchLeB q a b) true

instance (q : String) : IsTotal Country (searchLe q) where
  total a b := by
    unfold searchLe searchLeB
    rcases Bool.eq_false_or_eq_true (normalizeName a.name == q) with h₁ | h₁ <;>
      rcases Bool.eq_false_or_eq_true (normalizeName b.name == q) with h₂ | h₂ <;>
        simp [h₁, h₂] <;> omega

instance (q : String) : IsTrans Country (searchLe q) where
  trans a b c := by
    unfold searchLe searchLeB
    rcases Bool.eq_false_or_eq_true (normalizeName a.name == q) with h₁ | h₁ <;>
      rcases Bool.eq_false_or_eq_true (normalizeName b.name == q) with h₂ | h₂ <;>
        rcases Bool.eq_false_or_eq_true (normalizeName c.name == q) with h₃ | h₃ <;>
          simp [h₁, h₂, h₃] <;> omega

/-- The filter loop of data.js `searchCountries`: every table entry not in
`excludeCodes` whose normalized name — or, failing that, some normalized
alias — contains the normalized query is pushed as `{...country, code}` (the
`matchType` tag, unused by the game, is not modelled). -/
def searchMatches (query : String) (excludeCodes : List String)
    (table : CountryTable) : List Country :=
  table.filterMap (fun p =>
    if excludeCodes.contains p.1 then none
    else if strIncludes (normalizeName p.2.name) (normalizeName query) then
      some { p.2 with code := p.1 }
    else if p.2.aliases.any (fun a => strIncludes (normalizeName a) (normalizeName query)) then
      some { p.2 with code := p.1 }
    else none)

/-- data.js `searchCountries`.  An empty (falsy) query returns `[]`.
`Array.prototype.sort` is stable, so the result is the unique stable sort of
the matches under the comparator's preorder, here computed by insertion
sort. -/
def searchCountries (query : String) (excludeCodes : List String)
    (table : CountryTable) : List Country :=
  if query == "" then []
  else List.insertionSort (searchLe (normalizeName query))
    (searchMatches query excludeCodes table)

/-! ### Round state machine (game.js) -/

/-- A guess record `{code, name, correct}`; the synthesized guesses pushed by
`submit`/`reveal` additionally carry `revealed: true` (absent, i.e. falsy, on
player guesses). -/
structure Guess where
  code : String
  name : String
  correct : Bool
  revealed : Bool := false
deriving Repr, DecidableEq

/-- The fields of class `GameState`, as set by `reset()`. -/
structure GameState where
  targetCountry : Option Country := none
  targetCountryCode : Option String := none
  neighbors : List String := []
  neighborCountries : List Country := []
  guesses : List Guess := []
  correctGuesses : List String := []
  userCorrectGuesses : List String := []
  incorrectGuesses : List String := []
  submitted : Bool := false
  revealed : Bool := false
  score : Int := 0
  lastRoundGains : Nat := 0
  lastRoundLosses : Nat := 0
  round : Nat := 1
deriving Repr, DecidableEq

/-- JS `Set.prototype.add` on an insertion-ordered duplicate-free list. -/
def setAdd (s : List String) (x : String) : List String :=
  if s.contains x then s else s ++ [x]

/-- game.js `startNewRound`, with the country drawn by `getRandomCountryWithNeighbors`
passed as an explicit parameter.  A neighbor code missing from the country
table yields `{...undefined, code}` in JS; its absent name is modelled as
the empty string (never the case for valid data). -/
def startNewRound (ct : CountryTable) (nt : NeighborTable) (gs : GameState)
    (country : Country) : GameState :=
  let neighbors := getNeighbors nt country.code
  { gs with
    targetCountry := some country
    targetCountryCode := some country.code
    neighbors := neighbors
    neighborCountries := neighbors.map (fun code =>
      match tableGet ct code with
      | some c => { c with code := code }
      | none => { code := code, name := "", aliases := [] })
    guesses := []
    correctGuesses := []
    userCorrectGuesses := []
    incorrectGuesses := []
    submitted := false
    revealed := false
    lastRoundGains := 0
    lastRoundLosses := 0 }

/-- The success payload of `addGuess`: `{success: true, country, isCorrect}`. -/
structure AddGuessOk where
  country : Country
  isCorrect : Bool
deriving Repr, DecidableEq

/-- game.js `addGuess`.  `countries` is `Object.values(countriesData)`. -/
def addGuess (countries : List Country) (gs : GameState) (countryName : String) :
    GameState × Except String AddGuessOk :=
  match findCountryByName countryName countries with
  | none => (gs, Except.error ("Country not found"))
  | some country =>
    if gs.guesses.any (fun g => g.code == country.code) then
      (gs, Except.error ("Already guessed"))
    else
      let isCorrect := gs.neighbors.contains country.code
      ({ gs with guesses := gs.guesses ++
          [{ code := country.code, name := country.name, correct := isCorrect }] },
       Except.ok { country := country, isCorrect := isCorrect })

/-- game.js `removeGuess`: `findIndex` + `splice(index, 1)`, i.e. delete the
first guess with the given code; `false` when none exists. -/
def removeFirstGuess : List Guess → String → List Guess
  | [], _ => []
  | g :: rest, code => if g.code == code then rest else g :: removeFirstGuess rest code

def removeGuess (gs : GameState) (countryCode : String) : GameState × Bool :=
  if gs.guesses.any (fun g => g.code == countryCode) then
    ({ gs with guesses := removeFirstGuess gs.guesses countryCode }, true)
  else (gs, false)

/-- The success payload of `submit` (its `isComplete: true` field omitted). -/
structure SubmitOk where
  gains : Nat
  losses : Nat
  totalCorrect : Nat
  totalNeighbors : Nat
deriving Repr, DecidableEq

/-- The mutable counters threaded through submit's first `forEach` loop. -/
structure Tally where
  cg : List String
  ucg : List String
  icg : List String
  gains : Nat
  losses : Nat
deriving Repr, DecidableEq

/-- Submit's first loop: count each correct guess not yet in
`correctGuesses` as a gain (also recording it in `userCorrectGuesses`), each
incorrect guess not yet in `incorrectGuesses` as a loss. -/
def processGuesses : List Guess → Tally → Tally
  | [], t => t
  | g :: rest, t =>
    if g.correct then
      if t.cg.contains g.code then processGuesses rest t
      else processGuesses rest
        { t with cg := setAdd t.cg g.code, ucg := setAdd t.ucg g.code, gains := t.gains + 1 }
    else
      if t.icg.contains g.code then processGuesses rest t
      else processGuesses rest
        { t with icg := setAdd t.icg g.code, losses := t.losses + 1 }

/-- The state threaded through submit's auto-reveal loop. -/
structure RevealAcc where
  guesses : List Guess
  cg : List String
  losses : Nat
deriving Repr, DecidableEq

/-- Submit's second loop: every neighbor with no guess costs a loss, is
pushed as a `correct, revealed` guess when present in the country table, and
is added to `correctGuesses`. -/
def autoReveal (ct : CountryTable) : List String → RevealAcc → RevealAcc
  | [], acc => acc
  | code :: rest, acc =>
    if acc.guesses.any (fun g => g.code == code) then autoReveal ct rest acc
    else
      let newGuesses :=
        match tableGet ct code with
        | some c => acc.guesses ++
            [{ code := code, name := c.name, correct := true, revealed := true }]
        | none => acc.guesses
      autoReveal ct rest
        { guesses := newGuesses, cg := setAdd acc.cg code, losses := acc.losses + 1 }

/-- The value of submit's counters after its first loop. -/
def submitTally (gs : GameState) : Tally :=
  processGuesses gs.guesses
    { cg := gs.correctGuesses, ucg := gs.userCorrectGuesses,
      icg := gs.incorrectGuesses, gains := 0, losses := 0 }

/-- The value of the guess list / correct set / loss counter after submit's
auto-reveal loop. -/
def submitAcc (ct : CountryTable) (gs : GameState) : RevealAcc :=
  autoReveal ct gs.neighbors
    { guesses := gs.guesses, cg := (submitTally gs).cg,
      losses := (submitTally gs).losses }

/-- game.js `submit`. -/
def submit (ct : CountryTable) (gs : GameState) : GameState × Except String SubmitOk :=
  if gs.guesses.isEmpty then (gs, Except.error ("No guesses to submit"))
  else
    ({ gs with
        submitted := true
        revealed := true
        guesses := (submitAcc ct gs).guesses
        correctGuesses := (submitAcc ct gs).cg
        userCorrectGuesses := (submitTally gs).ucg
        incorrectGuesses := (submitTally gs).icg
        score := gs.score + (((submitTally gs).gains : Int) - ((submitAcc ct gs).losses : Int))
        lastRoundGains := (submitTally gs).gains
        lastRoundLosses := (submitAcc ct gs).losses },
     Except.ok { gains := (submitTally gs).gains, losses := (submitAcc ct gs).losses,
                 totalCorrect := (submitAcc ct gs).cg.length,
                 totalNeighbors := gs.neighbors.length })

/-- The loop of game.js `reveal`: push every unguessed neighbor present in
the table as a correct guess; add every neighbor code to `correctGuesses`. -/
def revealAll (ct : CountryTable) : List String → List Guess → List String →
    List Guess × List String
  | [], gl, cg => (gl, cg)
  | code :: rest, gl, cg =>
    let gl' :=
      if gl.any (fun g => g.code == code) then gl
      else
        match tableGet ct code with
        | some c => gl ++ [{ code := code, name := c.name, correct := true }]
        | none => gl
    revealAll ct rest gl' (setAdd cg code)

/-- game.js `reveal` (its result record's arithmetic kept as signed). -/
def reveal (ct : CountryTable) (gs : GameState) : GameState × (Nat × Int) :=
  let (gl, cg) := revealAll ct gs.neighbors gs.guesses gs.correctGuesses
  ({ gs with revealed := true, guesses := gl, correctGuesses := cg },
   (gs.neighbors.length,
    (gs.neighbors.length : Int) -
      ((cg.length : Int) - (gs.neighbors.length : Int) + (cg.length : Int))))

/-- game.js `nextRound`: increment the round counter, then start a round. -/
def nextRound (ct : CountryTable) (nt : NeighborTable) (gs : GameState)
    (country : Country) : GameState :=
  startNewRound ct nt { gs with round := gs.round + 1 } country

/-- The projection returned by game.js `getState` (the `progress` object is
flattened into `progressFound`/`progressTotal`). -/
structure StateSnapshot where
  targetCountry : Option Country
  targetCountryCode : Option String
  neighbors : List Country
  neighborCount : Nat
  guesses : List Guess
  correctCount : Nat
  submitted : Bool
  revealed : Bool
  score : Int
  lastRoundGains : Nat
  lastRoundLosses : Nat
  round : Nat
  canSubmit : Bool
  progressFound : Nat
  progressTotal : Nat
deriving Repr, DecidableEq

def getState (gs : GameState) : StateSnapshot :=
  { targetCountry := gs.targetCountry
    targetCountryCode := gs.targetCountryCode
    neighbors := gs.neighborCountries
    neighborCount := gs.neighbors.length
    guesses := gs.guesses
    correctCount := gs.correctGuesses.length
    submitted := gs.submitted
    revealed := gs.revealed
    score := gs.score
    lastRoundGains := gs.lastRoundGains
    lastRoundLosses := gs.lastRoundLosses
    round := gs.round
    canSubmit := decide (0 < gs.guesses.length) && !gs.revealed
    progressFound := gs.userCorrectGuesses.length
    progressTotal := gs.neighbors.length }

/-- The states reachable by driving a `GameState` (constructed by `reset`)
through the commands main.js issues: start/next round (with some drawn
country), add/remove guess, submit, reveal. -/
inductive Reachable (ct : CountryTable) (nt : NeighborTable) : GameState → Prop
  | start (c : Country) : Reachable ct nt (startNewRound ct nt {} c)
  | add (s : GameState) (name : String) :
      Reachable ct nt s → Reachable ct nt (addGuess (ct.map (fun p => p.2)) s name).1
  | remove (s : GameState) (code : String) :
      Reachable ct nt s → Reachable ct nt (removeGuess s code).1
  | submitStep (s : GameState) :
      Reachable ct nt s → Reachable ct nt (submit ct s).1
  | revealStep (s : GameState) :
      Reachable ct nt s → Reachable ct nt (reveal ct s).1
  | next (s : GameState) (c : Country) :
      Reachable ct nt s → Reachable ct nt (nextRound ct nt s c)

/-! ### Statement vocabulary derived from the source -/

def codesOf (gl : List Guess) : List String := gl.map (fun g => g.code)

/-- Neighbor codes with no guess in `gl` (the auto-reveal loop condition). -/
def missedOf (gl : List Guess) (nbrs : List String) : List String :=
  nbrs.filter (fun code => !(gl.any (fun g => g.code == code)))

/-- The synthesized guesses submit's auto-reveal appends. -/
def synthOf (ct : CountryTable) (gl : List Guess) (nbrs : List String) : List Guess :=
  (missedOf gl nbrs).filterMap (fun code => (tableGet ct code).map
    (fun c => { code := code, name := c.name, correct := true, revealed := true }))

def numCorrect (gl : List Guess) : Nat := (gl.filter (fun g => g.correct)).length

def numWrong (gl : List Guess) : Nat := (gl.filter (fun g => !g.correct)).length

def missedCount (gl : List Guess) (nbrs : List String) : Nat := (missedOf gl nbrs).length

/-- A round that is still in the `Guessing` state of the spec's state
machine: not yet submitted, the per-round bookkeeping sets still empty as
`startNewRound` left them, every guess's `correct` flag as `addGuess` fixed
it against this round's answer set, guesses unique by code, and the answer
set duplicate-free (it is a set in the adjacency data). -/
def ValidGuessing (s : GameState) : Prop :=
  s.submitted = false ∧
  s.correctGuesses = [] ∧
  s.userCorrectGuesses = [] ∧
  s.incorrectGuesses = [] ∧
  (∀ g ∈ s.guesses, g.correct = s.neighbors.contains g.code) ∧
  (codesOf s.guesses).Nodup ∧
  s.neighbors.Nodup

instance (s : GameState) : Decidable (ValidGuessing s) := by
  unfold ValidGuessing; infer_instance

/-! ### Concrete fixtures used by witnesses and counterexamples -/

def franceC : Country := { code := "FRA", name := "France", aliases := [] }
def spainC : Country := { code := "ESP", name := "Spain", aliases := [] }
def germanyC : Country := { code := "DEU", name := "Germany", aliases := [] }
def portugalC : Country := { code := "PRT", name := "Portugal", aliases := [] }

def ctD : CountryTable :=
  [("FRA", franceC), ("ESP", spainC), ("DEU", germanyC), ("PRT", portugalC)]

def ntD : NeighborTable :=
  [("FRA", ["ESP", "DEU"]), ("ESP", ["FRA", "PRT"]), ("DEU", ["FRA"]), ("PRT", ["ESP"])]

def clD : List Country := ctD.map (fun p => p.2)

/-- A fresh FRA round. -/
def sRound : GameState := startNewRound ctD ntD {} franceC

/-- After guessing Spain (a neighbor). -/
def sG1 : GameState := (addGuess clD sRound ("Spain")).1

/-- After additionally guessing Portugal (not a neighbor of France). -/
def sG2 : GameState := (addGuess clD sG1 ("Portugal")).1

/-- The finalized round obtained by submitting `sG1`. -/
def sSub : GameState := (submit ctD sG1).1

/-- Fixture for the search-ordering counterexample. -/
def cubaC : Country := { code := "CUB", name := "Cuba", aliases := [] }
def uaeC : Country := { code := "ARE", name := "U.A.E.", aliases := [] }
def tblC : CountryTable := [("CUB", cubaC), ("ARE", uaeC)]

/-- Fixture for the name-normalization claim. -/
def civC : Country := { code := "CIV", name := "Côte d\x27Ivoire", aliases := ["Ivory Coast"] }
def civT : List Country := [civC]

/-! ### Helper lemmas -/

theorem contains_eq_false_of_not_mem {s : List String} {x : String} (h : x ∉ s) :
    s.contains x = false := by
  cases hc : s.contains x
  · rfl
  · exact absurd (List.elem_iff.mp hc) h

theorem contains_eq_true_of_mem {s : List String} {x : String} (h : x ∈ s) :
    s.contains x = true :=
  List.elem_iff.mpr h

theorem setAdd_of_not_mem {s : List String} {x : String} (h : x ∉ s) :
    setAdd s x = s ++ [x] := by
  simp [setAdd, h]

theorem any_code_eq_false_iff {gl : List Guess} {code : String} :
    (gl.any (fun g => g.code == code)) = false ↔ ∀ g ∈ gl, g.code ≠ code := by
  simp

theorem any_code_eq_true_iff {gl : List Guess} {code : String} :
    (gl.any (fun g => g.code == code)) = true ↔ ∃ g ∈ gl, g.code = code := by
  simp

theorem codesOf_append (l₁ l₂ : List Guess) :
    codesOf (l₁ ++ l₂) = codesOf l₁ ++ codesOf l₂ := by
  simp [codesOf]

/-- Characterization of submit's first loop when no guess code has been
counted before (the situation in a `Guessing`-state round). -/
theorem processGuesses_go (gl : List Guess) (t : Tally)
    (h1 : ∀ g ∈ gl, g.correct = true → g.code ∉ t.cg ∧ g.code ∉ t.ucg)
    (h2 : ∀ g ∈ gl, g.correct = false → g.code ∉ t.icg)
    (hnd : (codesOf gl).Nodup) :
    processGuesses gl t =
      { cg := t.cg ++ codesOf (gl.filter (fun g => g.correct)),
        ucg := t.ucg ++ codesOf (gl.filter (fun g => g.correct)),
        icg := t.icg ++ codesOf (gl.filter (fun g => !g.correct)),
        gains := t.gains + numCorrect gl,
        losses := t.losses + numWrong gl } := by
  induction gl generalizing t with
  | nil => simp [processGuesses, codesOf, numCorrect, numWrong]
  | cons g rest ih =>
    have hnd' : (codesOf rest).Nodup := by
      have h' := hnd
      simp only [codesOf, List.map_cons, List.nodup_cons] at h'
      exact h'.2
    have hgrest : ∀ g' ∈ rest, g'.code ≠ g.code := by
      have h' := hnd
      simp only [codesOf, List.map_cons, List.nodup_cons, List.mem_map] at h'
      intro g' hm he
      exact h'.1 ⟨g', hm, he⟩
    cases hg : g.correct with
    | true =>
      have hcg : g.code ∉ t.cg := (h1 g (List.mem_cons_self _ _) hg).1
      have hucg : g.code ∉ t.ucg := (h1 g (List.mem_cons_self _ _) hg).2
      have h1' : ∀ g' ∈ rest, g'.correct = true →
          g'.code ∉ setAdd t.cg g.code ∧ g'.code ∉ setAdd t.ucg g.code := by
        intro g' hm hc
        rw [setAdd_of_not_mem hcg, setAdd_of_not_mem hucg]
        constructor
        · simp only [List.mem_append, List.mem_singleton]
          rintro (h | h)
          · exact (h1 g' (List.mem_cons_of_mem _ hm) hc).1 h
          · exact hgrest g' hm h
        · simp only [List.mem_append, List.mem_singleton]
          rintro (h | h)
          · exact (h1 g' (List.mem_cons_of_mem _ hm) hc).2 h
          · exact hgrest g' hm h
      have h2' : ∀ g' ∈ rest, g'.correct = false → g'.code ∉ t.icg :=
        fun g' hm hc => h2 g' (List.mem_cons_of_mem _ hm) hc
      calc processGuesses (g :: rest) t
          = processGuesses rest
              { t with cg := setAdd t.cg g.code, ucg := setAdd t.ucg g.code,
                       gains := t.gains + 1 } := by
            simp [processGuesses, hg, hcg]
        _ = _ := ih _ h1' h2' hnd'
        _ = _ := by
            simp only [setAdd_of_not_mem hcg, setAdd_of_not_mem hucg, Tally.mk.injEq]
            refine ⟨?_, ?_, ?_, ?_, ?_⟩
            · simp [hg, codesOf, List.filter_cons, List.append_assoc]
            · simp [hg, codesOf, List.filter_cons, List.append_assoc]
            · simp [hg, List.filter_cons]
            · simp [numCorrect, hg, List.filter_cons]; omega
            · simp [numWrong, hg, List.filter_cons]
    | false =>
      have hicg : g.code ∉ t.icg := h2 g (List.mem_cons_self _ _) hg
      have h1' : ∀ g' ∈ rest, g'.correct = true →
          g'.code ∉ t.cg ∧ g'.code ∉ t.ucg :=
        fun g' hm hc => h1 g' (List.mem_cons_of_mem _ hm) hc
      have h2' : ∀ g' ∈ rest, g'.correct = false → g'.code ∉ setAdd t.icg g.code := by
        intro g' hm hc
        rw [setAdd_of_not_mem hicg]
        simp only [List.mem_append, List.mem_singleton]
        rintro (h | h)
        · exact h2 g' (List.mem_cons_of_mem _ hm) hc h
        · exact hgrest g' hm h
      calc processGuesses (g :: rest) t
          = processGuesses rest
              { t with icg := setAdd t.icg g.code, losses := t.losses + 1 } := by
            simp [processGuesses, hg, hicg]
        _ = _ := ih _ h1' h2' hnd'
        _ = _ := by
            simp only [setAdd_of_not_mem hicg, Tally.mk.injEq]
            refine ⟨?_, ?_, ?_, ?_, ?_⟩
            · simp [hg, List.filter_cons]
            · simp [hg, List.filter_cons]
            · simp [hg, codesOf, List.filter_cons, List.append_assoc]
            · simp [numCorrect, hg, List.filter_cons]
            · simp [numWrong, hg, List.filter_cons]; omega

/-- Submit's first loop changes nothing when every guess has already been
counted (the situation on a second submit). -/
theorem processGuesses_noop (gl : List Guess) (t : Tally)
    (h : ∀ g ∈ gl, (g.correct = true → g.code ∈ t.cg) ∧
         (g.correct = false → g.code ∈ t.icg)) :
    processGuesses gl t = t := by
  induction gl with
  | nil => rfl
  | cons g rest ih =>
    have ih' := ih (fun g' hg' => h g' (List.mem_cons_of_mem _ hg'))
    cases hg : g.correct with
    | true =>
      have hm : g.code ∈ t.cg := (h g (List.mem_cons_self _ _)).1 hg
      simpa [processGuesses, hg, hm] using ih'
    | false =>
      have hm : g.code ∈ t.icg := (h g (List.mem_cons_self _ _)).2 hg
      simpa [processGuesses, hg, hm] using ih'

/-- Adding pairwise-new codes to a JS set is list concatenation. -/
theorem foldl_setAdd_of_disjoint (l : List String) (cg : List String)
    (hnd : l.Nodup) (hdisj : ∀ x ∈ l, x ∉ cg) :
    List.foldl setAdd cg l = cg ++ l := by
  induction l generalizing cg with
  | nil => simp
  | cons x rest ih =>
    have hx : x ∉ cg := hdisj x (List.mem_cons_self _ _)
    have hxr : x ∉ rest := by
      have := hnd
      simp only [List.nodup_cons] at this
      exact this.1
    rw [List.foldl_cons, setAdd_of_not_mem hx,
      ih (cg ++ [x]) hnd.of_cons ?_]
    · simp
    · intro y hy
      simp only [List.mem_append, List.mem_singleton]
      rintro (h | h)
      · exact hdisj y (List.mem_cons_of_mem _ hy) h
      · exact hxr (h ▸ hy)

/-- Characterization of submit's auto-reveal loop: it appends the
synthesized guesses for the missed neighbors, adds the missed codes to the
correct-guess set, and counts one loss per missed neighbor.  `extra` is the
already-appended portion of the guess list (disjoint from the remaining
neighbors). -/
theorem autoReveal_go (ct : CountryTable) (gl0 : List Guess) (nbrs : List String)
    (extra : List Guess) (cg : List String) (losses : Nat)
    (hnd : nbrs.Nodup)
    (hex : ∀ g ∈ extra, g.code ∉ nbrs) :
    autoReveal ct nbrs { guesses := gl0 ++ extra, cg := cg, losses := losses } =
      { guesses := gl0 ++ (extra ++ synthOf ct gl0 nbrs),
        cg := List.foldl setAdd cg (missedOf gl0 nbrs),
        losses := losses + (missedOf gl0 nbrs).length } := by
  induction nbrs generalizing extra cg losses with
  | nil => simp [autoReveal, synthOf, missedOf]
  | cons code rest ih =>
    have hndr : rest.Nodup := hnd.of_cons
    have hcr : code ∉ rest := by
      have := hnd
      simp only [List.nodup_cons] at this
      exact this.1
    have hexr : ∀ g ∈ extra, g.code ∉ rest :=
      fun g hg hm => hex g hg (List.mem_cons_of_mem _ hm)
    by_cases hb : ∃ g ∈ gl0, g.code = code
    · have hany : ((gl0 ++ extra).any (fun g => g.code == code)) = true := by
        rw [any_code_eq_true_iff]
        obtain ⟨g, hg, he⟩ := hb
        exact ⟨g, List.mem_append_left _ hg, he⟩
      have hmiss : missedOf gl0 (code :: rest) = missedOf gl0 rest := by
        have : (gl0.any (fun g => g.code == code)) = true := by
          rw [any_code_eq_true_iff]; exact hb
        simp [missedOf, List.filter_cons, this]
      have hsyn : synthOf ct gl0 (code :: rest) = synthOf ct gl0 rest := by
        simp [synthOf, hmiss]
      rw [show autoReveal ct (code :: rest) { guesses := gl0 ++ extra, cg := cg, losses := losses } =
            (if (gl0 ++ extra).any (fun g => g.code == code) then
              autoReveal ct rest { guesses := gl0 ++ extra, cg := cg, losses := losses }
            else
              autoReveal ct rest
                { guesses :=
                    match tableGet ct code with
                    | some c => (gl0 ++ extra) ++
                        [{ code := code, name := c.name, correct := true, revealed := true }]
                    | none => gl0 ++ extra,
                  cg := setAdd cg code, losses := losses + 1 })
          from rfl]
      rw [hany, if_pos rfl, hmiss, hsyn]
      exact ih extra cg losses hndr hexr
    · have hglany : (gl0.any (fun g => g.code == code)) = false := by
        rw [any_code_eq_false_iff]
        intro g hg he
        exact hb ⟨g, hg, he⟩
      have hany : ((gl0 ++ extra).any (fun g => g.code == code)) = false := by
        rw [any_code_eq_false_iff]
        intro g hg
        rcases List.mem_append.mp hg with h | h
        · exact any_code_eq_false_iff.mp hglany g h
        · exact fun he => hex g h (he ▸ List.mem_cons_self _ _)
      have hmiss : missedOf gl0 (code :: rest) = code :: missedOf gl0 rest := by
        simp [missedOf, List.filter_cons, hglany]
      rw [show autoReveal ct (code :: rest) { guesses := gl0 ++ extra, cg := cg, losses := losses } =
            (if (gl0 ++ extra).any (fun g => g.code == code) then
              autoReveal ct rest { guesses := gl0 ++ extra, cg := cg, losses := losses }
            else
              autoReveal ct rest
                { guesses :=
                    match tableGet ct code with
                    | some c => (gl0 ++ extra) ++
                        [{ code := code, name := c.name, correct := true, revealed := true }]
                    | none => gl0 ++ extra,
                  cg := setAdd cg code, losses := losses + 1 })
          from rfl]
      rw [hany]
      simp only [Bool.false_eq_true, if_false]
      cases htg : tableGet ct code with
      | some c =>
        have hsyn : synthOf ct gl0 (code :: rest) =
            { code := code, name := c.name, correct := true, revealed := true } ::
              synthOf ct gl0 rest := by
          simp [synthOf, hmiss, List.filterMap_cons, htg]
        have hex' : ∀ g ∈ extra ++
            [{ code := code, name := c.name, correct := true, revealed := true }],
            g.code ∉ rest := by
          intro g hg
          rcases List.mem_append.mp hg with h | h
          · exact hexr g h
          · simp only [List.mem_singleton] at h
            subst h
            exact hcr
        show autoReveal ct rest
            { guesses := (gl0 ++ extra) ++
                [{ code := code, name := c.name, correct := true, revealed := true }],
              cg := setAdd cg code, losses := losses + 1 } = _
        rw [List.append_assoc]
        have hih := ih
          (extra ++ [({ code := code, name := c.name, correct := true, revealed := true } : Guess)])
          (setAdd cg code) (losses + 1) hndr hex'
        rw [hih]
        simp only [RevealAcc.mk.injEq]
        refine ⟨?_, ?_, ?_⟩
        · rw [hsyn]
          simp
        · rw [hmiss, List.foldl_cons]
        · rw [hmiss]
          simp only [List.length_cons]
          omega
      | none =>
        have hsyn : synthOf ct gl0 (code :: rest) = synthOf ct gl0 rest := by
          simp [synthOf, hmiss, List.filterMap_cons, htg]
        show autoReveal ct rest
            { guesses := gl0 ++ extra, cg := setAdd cg code, losses := losses + 1 } = _
        rw [ih extra (setAdd cg code) (losses + 1) hndr hexr]
        simp only [RevealAcc.mk.injEq]
        refine ⟨?_, ?_, ?_⟩
        · rw [hsyn]
        · rw [hmiss, List.foldl_cons]
        · rw [hmiss]
          simp only [List.length_cons]
          omega

/-- The auto-reveal loop changes nothing when every neighbor already has a
guess (the situation on a second submit). -/
theorem autoReveal_noop (ct : CountryTable) (nbrs : List String) (acc : RevealAcc)
    (h : ∀ code ∈ nbrs, ∃ g ∈ acc.guesses, g.code = code) :
    autoReveal ct nbrs acc = acc := by
  induction nbrs with
  | nil => rfl
  | cons code rest ih =>
    have hany : (acc.guesses.any (fun g => g.code == code)) = true :=
      any_code_eq_true_iff.mpr (h code (List.mem_cons_self _ _))
    rw [show autoReveal ct (code :: rest) acc =
          (if acc.guesses.any (fun g => g.code == code) then autoReveal ct rest acc
          else
            autoReveal ct rest
              { guesses :=
                  match tableGet ct code with
                  | some c => acc.guesses ++
                      [{ code := code, name := c.name, correct := true, revealed := true }]
                  | none => acc.guesses,
                cg := setAdd acc.cg code, losses := acc.losses + 1 })
        from rfl]
    rw [hany, if_pos rfl]
    exact ih (fun c hc => h c (List.mem_cons_of_mem _ hc))

/-- Corollary of `autoReveal_go` for the actual starting accumulator. -/
theorem autoReveal_run (ct : CountryTable) (gl0 : List Guess) (nbrs : List String)
    (cg : List String) (losses : Nat) (hnd : nbrs.Nodup) :
    autoReveal ct nbrs { guesses := gl0, cg := cg, losses := losses } =
      { guesses := gl0 ++ synthOf ct gl0 nbrs,
        cg := List.foldl setAdd cg (missedOf gl0 nbrs),
        losses := losses + (missedOf gl0 nbrs).length } := by
  have h := autoReveal_go ct gl0 nbrs [] cg losses hnd (by simp)
  simpa using h

/-- In a `Guessing`-state round, submit's first loop counts exactly the
correct and incorrect guess codes. -/
theorem submitTally_eq (s : GameState) (h : ValidGuessing s) :
    submitTally s =
      { cg := codesOf (s.guesses.filter (fun g => g.correct)),
        ucg := codesOf (s.guesses.filter (fun g => g.correct)),
        icg := codesOf (s.guesses.filter (fun g => !g.correct)),
        gains := numCorrect s.guesses,
        losses := numWrong s.guesses } := by
  obtain ⟨hsub, hcg, hucg, hicg, hflag, hndg, hndn⟩ := h
  unfold submitTally
  rw [hcg, hucg, hicg]
  rw [processGuesses_go s.guesses
    { cg := [], ucg := [], icg := [], gains := 0, losses := 0 }
    (by simp) (by simp) hndg]
  simp

/-- Codes of correct guesses are disjoint from the missed neighbors. -/
theorem missed_disjoint_codes (gl : List Guess) (nbrs : List String) :
    ∀ x ∈ missedOf gl nbrs, x ∉ codesOf gl := by
  intro x hx hmem
  simp only [missedOf, List.mem_filter] at hx
  simp only [codesOf, List.mem_map] at hmem
  obtain ⟨g, hg, he⟩ := hmem
  have := any_code_eq_false_iff.mp (by simpa using hx.2) g hg
  exact this he

theorem missedOf_nodup {gl : List Guess} {nbrs : List String} (h : nbrs.Nodup) :
    (missedOf gl nbrs).Nodup :=
  h.filter _

theorem codesOf_filter_sublist (gl : List Guess) (p : Guess → Bool) :
    List.Sublist (codesOf (gl.filter p)) (codesOf gl) := by
  unfold codesOf
  exact (List.filter_sublist gl).map (fun g => g.code)

/-- In a `Guessing`-state round, submit's auto-reveal loop appends the
synthesized guesses and extends the correct set with the missed codes. -/
theorem submitAcc_eq (ct : CountryTable) (s : GameState) (h : ValidGuessing s) :
    submitAcc ct s =
      { guesses := s.guesses ++ synthOf ct s.guesses s.neighbors,
        cg := codesOf (s.guesses.filter (fun g => g.correct)) ++
          missedOf s.guesses s.neighbors,
        losses := numWrong s.guesses + missedCount s.guesses s.neighbors } := by
  unfold submitAcc
  rw [submitTally_eq s h]
  rw [autoReveal_run ct s.guesses s.neighbors _ _ h.2.2.2.2.2.2]
  rw [foldl_setAdd_of_disjoint _ _ (missedOf_nodup h.2.2.2.2.2.2) ?_]
  · simp [missedCount]
  · intro x hx hmem
    exact missed_disjoint_codes s.guesses s.neighbors x hx
      ((codesOf_filter_sublist s.guesses _).mem hmem)

/-- Full characterization of a successful submit from a `Guessing`-state
round: the guess list gains the synthesized reveals, the correct set becomes
the correct guess codes plus the missed neighbors, and the score moves by
gains minus losses. -/
theorem submit_spec (ct : CountryTable) (s : GameState) (h : ValidGuessing s)
    (hne : s.guesses ≠ []) :
    submit ct s =
      ({ s with
          submitted := true
          revealed := true
          guesses := s.guesses ++ synthOf ct s.guesses s.neighbors
          correctGuesses := codesOf (s.guesses.filter (fun g => g.correct)) ++
            missedOf s.guesses s.neighbors
          userCorrectGuesses := codesOf (s.guesses.filter (fun g => g.correct))
          incorrectGuesses := codesOf (s.guesses.filter (fun g => !g.correct))
          score := s.score + ((numCorrect s.guesses : Int) -
            ((numWrong s.guesses + missedCount s.guesses s.neighbors : Nat) : Int))
          lastRoundGains := numCorrect s.guesses
          lastRoundLosses := numWrong s.guesses + missedCount s.guesses s.neighbors },
       Except.ok { gains := numCorrect s.guesses,
                   losses := numWrong s.guesses + missedCount s.guesses s.neighbors,
                   totalCorrect := numCorrect s.guesses + missedCount s.guesses s.neighbors,
                   totalNeighbors := s.neighbors.length }) := by
  have hempty : s.guesses.isEmpty = false := by
    simp [List.isEmpty_iff, hne]
  unfold submit
  rw [hempty]
  simp only [Bool.false_eq_true, if_false]
  rw [submitAcc_eq ct s h, submitTally_eq s h]
  simp [numCorrect, missedCount, codesOf]

/-- After submit from a `Guessing` round, the correct-guess set holds
exactly the answer set. -/
theorem correct_set_iff_answer (s : GameState) (h : ValidGuessing s) (x : String) :
    x ∈ codesOf (s.guesses.filter (fun g => g.correct)) ++
        missedOf s.guesses s.neighbors ↔ x ∈ s.neighbors := by
  obtain ⟨hsub, hcg, hucg, hicg, hflag, hndg, hndn⟩ := h
  constructor
  · intro hx
    rcases List.mem_append.mp hx with hx | hx
    · simp only [codesOf, List.mem_map, List.mem_filter] at hx
      obtain ⟨g, ⟨hgm, hgc⟩, he⟩ := hx
      have := hflag g hgm
      rw [hgc] at this
      exact he ▸ List.elem_iff.mp this.symm
    · exact ((List.mem_filter).mp hx).1
  · intro hx
    by_cases hg : ∃ g ∈ s.guesses, g.code = x
    · apply List.mem_append_left
      obtain ⟨g, hgm, he⟩ := hg
      have hc : g.correct = true := by
        rw [hflag g hgm, he]
        exact contains_eq_true_of_mem hx
      simp only [codesOf, List.mem_map]
      exact ⟨g, List.mem_filter.mpr ⟨hgm, hc⟩, he⟩
    · apply List.mem_append_right
      apply List.mem_filter.mpr
      refine ⟨hx, ?_⟩
      have : (s.guesses.any (fun g => g.code == x)) = false := by
        rw [any_code_eq_false_iff]
        intro g hgm he
        exact hg ⟨g, hgm, he⟩
      simp [this]

/-- The post-submit correct-guess set is duplicate-free. -/
theorem correct_set_nodup (s : GameState) (h : ValidGuessing s) :
    (codesOf (s.guesses.filter (fun g => g.correct)) ++
      missedOf s.guesses s.neighbors).Nodup := by
  rw [List.nodup_append]
  refine ⟨h.2.2.2.2.2.1.sublist (codesOf_filter_sublist _ _),
    missedOf_nodup h.2.2.2.2.2.2, ?_⟩
  intro a ha hb
  exact missed_disjoint_codes s.guesses s.neighbors a hb
    ((codesOf_filter_sublist s.guesses _).mem ha)

/-- Gains plus missed-losses equals the answer-set size. -/
theorem gains_add_missed (s : GameState) (h : ValidGuessing s) :
    numCorrect s.guesses + missedCount s.guesses s.neighbors = s.neighbors.length := by
  have hlen : (codesOf (s.guesses.filter (fun g => g.correct)) ++
      missedOf s.guesses s.neighbors).length = s.neighbors.length :=
    ((List.perm_ext_iff_of_nodup (correct_set_nodup s h) h.2.2.2.2.2.2).2
      (correct_set_iff_answer s h)).length_eq
  simpa [numCorrect, missedCount, codesOf] using hlen

/-- A synthesized guess comes from a missed neighbor and is correct. -/
theorem synthOf_mem {ct : CountryTable} {gl : List Guess} {nbrs : List String}
    {g : Guess} (hg : g ∈ synthOf ct gl nbrs) :
    g.code ∈ missedOf gl nbrs ∧ g.correct = true := by
  simp only [synthOf, List.mem_filterMap] at hg
  obtain ⟨code, hm, hmap⟩ := hg
  cases htg : tableGet ct code with
  | none => rw [htg] at hmap; simp at hmap
  | some c =>
    rw [htg] at hmap
    have h2 : some ({ code := code, name := c.name, correct := true, revealed := true } : Guess) = some g := hmap
    obtain rfl := Option.some.inj h2
    exact ⟨hm, rfl⟩

/-- When every answer code is in the country table, every answer code has a
correct guess in the post-submit guess list. -/
theorem answer_has_guess (ct : CountryTable) (s : GameState) (h : ValidGuessing s)
    (hct : ∀ code ∈ s.neighbors, (tableGet ct code).isSome = true) :
    ∀ code ∈ s.neighbors, ∃ g ∈ s.guesses ++ synthOf ct s.guesses s.neighbors,
      g.code = code ∧ g.correct = true := by
  intro code hc
  by_cases hg : ∃ g ∈ s.guesses, g.code = code
  · obtain ⟨g, hgm, he⟩ := hg
    have hcor : g.correct = true := by
      rw [h.2.2.2.2.1 g hgm, he]
      exact contains_eq_true_of_mem hc
    exact ⟨g, List.mem_append_left _ hgm, he, hcor⟩
  · have hmiss : code ∈ missedOf s.guesses s.neighbors := by
      apply List.mem_filter.mpr
      refine ⟨hc, ?_⟩
      have : (s.guesses.any (fun g => g.code == code)) = false := by
        rw [any_code_eq_false_iff]
        intro g hgm he
        exact hg ⟨g, hgm, he⟩
      simp [this]
    obtain ⟨c, htg⟩ := Option.isSome_iff_exists.mp (hct code hc)
    refine ⟨{ code := code, name := c.name, correct := true, revealed := true },
      List.mem_append_right _ ?_, rfl, rfl⟩
    simp only [synthOf, List.mem_filterMap]
    exact ⟨code, hmiss, by simp [htg]⟩

/-! ### Step equations for the fallible operations -/

theorem addGuess_eq_notFound {cl : List Country} {s : GameState} {name : String}
    (hf : findCountryByName name cl = none) :
    addGuess cl s name = (s, Except.error ("Country not found")) := by
  unfold addGuess
  rw [hf]

theorem addGuess_eq_dup {cl : List Country} {s : GameState} {name : String}
    {c : Country} (hf : findCountryByName name cl = some c)
    (hany : (s.guesses.any (fun g => g.code == c.code)) = true) :
    addGuess cl s name = (s, Except.error ("Already guessed")) := by
  unfold addGuess
  rw [hf]
  show (if (s.guesses.any (fun g => g.code == c.code)) = true then _ else _) = _
  rw [hany]
  simp

theorem addGuess_eq_ok {cl : List Country} {s : GameState} {name : String}
    {c : Country} (hf : findCountryByName name cl = some c)
    (hany : (s.guesses.any (fun g => g.code == c.code)) = false) :
    addGuess cl s name =
      ({ s with guesses := s.guesses ++
          [{ code := c.code, name := c.name,
             correct := s.neighbors.contains c.code, revealed := false }] },
       Except.ok { country := c, isCorrect := s.neighbors.contains c.code }) := by
  unfold addGuess
  rw [hf]
  show (if (s.guesses.any (fun g => g.code == c.code)) = true then _ else _) = _
  rw [hany]
  simp

theorem removeGuess_eq_true {s : GameState} {code : String}
    (hany : (s.guesses.any (fun g => g.code == code)) = true) :
    removeGuess s code =
      ({ s with guesses := removeFirstGuess s.guesses code }, true) := by
  unfold removeGuess
  rw [hany]
  simp

theorem removeGuess_eq_false {s : GameState} {code : String}
    (hany : (s.guesses.any (fun g => g.code == code)) = false) :
    removeGuess s code = (s, false) := by
  unfold removeGuess
  rw [hany]
  simp

theorem submit_eq_empty {ct : CountryTable} {s : GameState}
    (he : s.guesses = []) :
    submit ct s = (s, Except.error ("No guesses to submit")) := by
  unfold submit
  rw [show s.guesses.isEmpty = true from by simp [he]]
  simp

/-! ### Duplicate-freedom preservation (for the reachability invariant) -/

theorem addGuess_nodup (cl : List Country) (s : GameState) (name : String)
    (h : (codesOf s.guesses).Nodup) :
    (codesOf (addGuess cl s name).1.guesses).Nodup := by
  cases hf : findCountryByName name cl with
  | none => rw [addGuess_eq_notFound hf]; exact h
  | some c =>
    cases hany : s.guesses.any (fun g => g.code == c.code) with
    | true => rw [addGuess_eq_dup hf hany]; exact h
    | false =>
      rw [addGuess_eq_ok hf hany]
      show (codesOf (s.guesses ++
        [{ code := c.code, name := c.name,
           correct := s.neighbors.contains c.code, revealed := false }])).Nodup
      rw [codesOf_append, List.nodup_append]
      refine ⟨h, List.nodup_singleton _, ?_⟩
      intro a ha hb
      simp only [codesOf, List.mem_map] at ha
      obtain ⟨g, hgm, he⟩ := ha
      simp only [codesOf, List.map_cons, List.map_nil, List.mem_singleton] at hb
      exact any_code_eq_false_iff.mp hany g hgm (he.trans hb)

theorem removeFirstGuess_sublist (gl : List Guess) (code : String) :
    List.Sublist (removeFirstGuess gl code) gl := by
  induction gl with
  | nil => simp [removeFirstGuess]
  | cons g rest ih =>
    rw [removeFirstGuess]
    by_cases hg : (g.code == code) = true
    · rw [if_pos hg]
      exact List.sublist_cons_self g rest
    · rw [if_neg hg]
      exact ih.cons₂ g

theorem removeGuess_nodup (s : GameState) (code : String)
    (h : (codesOf s.guesses).Nodup) :
    (codesOf (removeGuess s code).1.guesses).Nodup := by
  cases hany : s.guesses.any (fun g => g.code == code) with
  | true =>
    rw [removeGuess_eq_true hany]
    exact h.sublist ((removeFirstGuess_sublist s.guesses code).map _)
  | false =>
    rw [removeGuess_eq_false hany]
    exact h

theorem autoReveal_nodup (ct : CountryTable) (nbrs : List String) :
    ∀ acc : RevealAcc, (codesOf acc.guesses).Nodup →
      (codesOf (autoReveal ct nbrs acc).guesses).Nodup := by
  induction nbrs with
  | nil => exact fun acc h => h
  | cons code rest ih =>
    intro acc h
    rw [show autoReveal ct (code :: rest) acc =
          (if acc.guesses.any (fun g => g.code == code) then autoReveal ct rest acc
          else
            autoReveal ct rest
              { guesses :=
                  match tableGet ct code with
                  | some c => acc.guesses ++
                      [{ code := code, name := c.name, correct := true, revealed := true }]
                  | none => acc.guesses,
                cg := setAdd acc.cg code, losses := acc.losses + 1 })
        from rfl]
    cases hany : acc.guesses.any (fun g => g.code == code) with
    | true =>
      rw [if_pos rfl]
      exact ih acc h
    | false =>
      rw [if_neg (by simp)]
      cases htg : tableGet ct code with
      | some c =>
        apply ih
        show (codesOf (acc.guesses ++
          [{ code := code, name := c.name, correct := true, revealed := true }])).Nodup
        rw [codesOf_append, List.nodup_append]
        refine ⟨h, List.nodup_singleton _, ?_⟩
        intro a ha hb
        simp only [codesOf, List.mem_map] at ha
        obtain ⟨g, hgm, he⟩ := ha
        simp only [codesOf, List.map_cons, List.map_nil, List.mem_singleton] at hb
        exact any_code_eq_false_iff.mp hany g hgm (he.trans hb)
      | none =>
        apply ih
        show (codesOf acc.guesses).Nodup
        exact h

theorem revealAll_nodup (ct : CountryTable) (nbrs : List String) :
    ∀ (gl : List Guess) (cg : List String), (codesOf gl).Nodup →
      (codesOf (revealAll ct nbrs gl cg).1).Nodup := by
  induction nbrs with
  | nil => exact fun gl cg h => h
  | cons code rest ih =>
    intro gl cg h
    rw [show revealAll ct (code :: rest) gl cg =
          revealAll ct rest
            (if gl.any (fun g => g.code == code) then gl
             else
               match tableGet ct code with
               | some c => gl ++ [{ code := code, name := c.name, correct := true }]
               | none => gl)
            (setAdd cg code)
        from rfl]
    cases hany : gl.any (fun g => g.code == code) with
    | true =>
      rw [if_pos rfl]
      exact ih gl _ h
    | false =>
      rw [if_neg (by simp)]
      cases htg : tableGet ct code with
      | some c =>
        apply ih
        show (codesOf (gl ++
          [{ code := code, name := c.name, correct := true, revealed := false }])).Nodup
        rw [codesOf_append, List.nodup_append]
        refine ⟨h, List.nodup_singleton _, ?_⟩
        intro a ha hb
        simp only [codesOf, List.mem_map] at ha
        obtain ⟨g, hgm, he⟩ := ha
        simp only [codesOf, List.map_cons, List.map_nil, List.mem_singleton] at hb
        exact any_code_eq_false_iff.mp hany g hgm (he.trans hb)
      | none =>
        apply ih
        show (codesOf gl).Nodup
        exact h

theorem reveal_guesses_eq (ct : CountryTable) (gs : GameState) :
    (reveal ct gs).1.guesses =
      (revealAll ct gs.neighbors gs.guesses gs.correctGuesses).1 := by
  unfold reveal
  rcases hr : revealAll ct gs.neighbors gs.guesses gs.correctGuesses with ⟨gl, cg⟩
  rfl

theorem submit_nodup (ct : CountryTable) (s : GameState)
    (h : (codesOf s.guesses).Nodup) :
    (codesOf (submit ct s).1.guesses).Nodup := by
  unfold submit
  cases he : s.guesses.isEmpty with
  | true =>
    rw [if_pos rfl]
    exact h
  | false =>
    rw [if_neg (by simp)]
    exact autoReveal_nodup ct s.neighbors _ h

/-- Lookup via `findCountryByName` only sees the normalized input. -/
theorem findCountryByName_congr (t : List Country) (n₁ n₂ : String)
    (h : normalizeName n₁ = normalizeName n₂) :
    findCountryByName n₁ t = findCountryByName n₂ t := by
  unfold findCountryByName
  rw [h]

/-- The pair `findIndex` + `splice(index, 1)` deletes exactly the first matching
guess. -/
theorem removeFirst_decomp (code : String) : ∀ gl : List Guess,
    (gl.any (fun g => g.code == code)) = true →
    ∃ l₁ g l₂, gl = l₁ ++ g :: l₂ ∧ g.code = code ∧ (∀ g' ∈ l₁, g'.code ≠ code) ∧
      removeFirstGuess gl code = l₁ ++ l₂ := by
  intro gl
  induction gl with
  | nil => intro hany; simp at hany
  | cons g rest ih =>
    intro hany
    by_cases hg : (g.code == code) = true
    · refine ⟨[], g, rest, by simp, beq_iff_eq.mp hg, by simp, ?_⟩
      simp [removeFirstGuess, hg]
    · have hgne : g.code ≠ code := fun he => hg (beq_iff_eq.mpr he)
      have hany' : (rest.any (fun g => g.code == code)) = true := by
        rcases any_code_eq_true_iff.mp hany with ⟨g', hm', he'⟩
        rcases List.mem_cons.mp hm' with h | h
        · exact absurd (h ▸ he') hgne
        · exact any_code_eq_true_iff.mpr ⟨g', h, he'⟩
      obtain ⟨l₁, g0, l₂, hsplit, hcode, hnone, hrem⟩ := ih hany'
      refine ⟨g :: l₁, g0, l₂, by simp [hsplit], hcode, ?_, ?_⟩
      · intro g' hm
        rcases List.mem_cons.mp hm with h | h
        · exact h ▸ hgne
        · exact hnone g' h
      · simp [removeFirstGuess, hg, hrem]

/-! ### Claims -/

/-- Claim C3 (amended): `removeGuess` performs no lock check.  It returns
`false` exactly when no guess with the given code exists, in which case the
state is unchanged; when a matching guess exists — locked (post-submit,
correct) or not — it deletes the first one and returns `true`. -/
theorem claim_C3_removeGuess (s : GameState) (code : String) :
    ((removeGuess s code).2 = false ↔ ∀ g ∈ s.guesses, g.code ≠ code) ∧
    ((removeGuess s code).2 = false → (removeGuess s code).1 = s) ∧
    ((removeGuess s code).2 = true → ∃ l₁ g l₂, s.guesses = l₁ ++ g :: l₂ ∧
      g.code = code ∧ (∀ g' ∈ l₁, g'.code ≠ code) ∧
      (removeGuess s code).1 = { s with guesses := l₁ ++ l₂ }) := by
  cases hany : s.guesses.any (fun g => g.code == code) with
  | false =>
    rw [removeGuess_eq_false hany]
    exact ⟨iff_of_true rfl (any_code_eq_false_iff.mp hany), fun _ => rfl, by simp⟩
  | true =>
    rw [removeGuess_eq_true hany]
    obtain ⟨gw, hmw, hew⟩ := any_code_eq_true_iff.mp hany
    refine ⟨iff_of_false (by simp) (fun hall => hall gw hmw hew), by simp, ?_⟩
    intro _
    obtain ⟨l₁, g, l₂, hsplit, hcode, hnone, hrem⟩ :=
      removeFirst_decomp code s.guesses hany
    exact ⟨l₁, g, l₂, hsplit, hcode, hnone, by rw [hrem]⟩

/-- Claim C3 counterexample: in the finalized round `sSub`, the Spain guess
is correct (locked, in the spec's terms), yet `removeGuess` succeeds and the
guess is gone — no `LockedGuessError` exists in the code. -/
theorem claim_C3_cex :
    sSub.submitted = true ∧
    (∃ g ∈ sSub.guesses, g.code = "ESP" ∧ g.correct = true) ∧
    (removeGuess sSub ("ESP")).2 = true ∧
    (∀ g ∈ (removeGuess sSub ("ESP")).1.guesses, g.code ≠ "ESP") := by
  decide

/-- Claim C3 witness: removing an absent code returns the state unchanged. -/
theorem claim_C3_witness : (removeGuess sSub ("PRT")).1 = sSub :=
  (claim_C3_removeGuess sSub ("PRT")).2.1 (by decide)

/-- Claim C4 (amended): `addGuess` never consults the submitted/finalized
flag; even on a finalized round it succeeds for any resolvable, non-duplicate
name and appends the guess. -/
theorem claim_C4_addGuess (cl : List Country) (s : GameState) (name : String)
    (c : Country) (_hsub : s.submitted = true)
    (hf : findCountryByName name cl = some c)
    (hany : (s.guesses.any (fun g => g.code == c.code)) = false) :
    (addGuess cl s name).2 =
      Except.ok { country := c, isCorrect := s.neighbors.contains c.code } ∧
    (addGuess cl s name).1.guesses = s.guesses ++
      [{ code := c.code, name := c.name,
         correct := s.neighbors.contains c.code, revealed := false }] := by
  rw [addGuess_eq_ok hf hany]
  exact ⟨rfl, rfl⟩

/-- Claim C4 counterexample: on the finalized round `sSub`, `addGuess`
succeeds instead of failing with `InvalidStateError`, and the guess list
grows. -/
theorem claim_C4_cex :
    sSub.submitted = true ∧
    (addGuess clD sSub ("Portugal")).2 =
      Except.ok { country := portugalC, isCorrect := false } ∧
    (addGuess clD sSub ("Portugal")).1.guesses.length = sSub.guesses.length + 1 := by
  exact ⟨by decide, rfl, by decide⟩

/-- Claim C4 witness. -/
theorem claim_C4_witness :
    (addGuess clD sSub ("Portugal")).2 =
      Except.ok { country := portugalC, isCorrect := sSub.neighbors.contains ("PRT") } ∧
    (addGuess clD sSub ("Portugal")).1.guesses = sSub.guesses ++
      [{ code := "PRT", name := "Portugal",
         correct := sSub.neighbors.contains ("PRT"), revealed := false }] :=
  claim_C4_addGuess clD sSub ("Portugal") portugalC (by decide) (by decide) (by decide)

/-- Claim C5: every user-input failure leaves the state untouched —
unresolvable names, duplicate guesses, and submitting with an empty guess
list each return the unchanged state with the corresponding error. -/
theorem claim_C5_errors_preserve_state :
    (∀ (cl : List Country) (s : GameState) (name : String),
      findCountryByName name cl = none →
        addGuess cl s name = (s, Except.error ("Country not found"))) ∧
    (∀ (cl : List Country) (s : GameState) (name : String) (c : Country),
      findCountryByName name cl = some c →
        (s.guesses.any (fun g => g.code == c.code)) = true →
        addGuess cl s name = (s, Except.error ("Already guessed"))) ∧
    (∀ (ct : CountryTable) (s : GameState), s.guesses = [] →
      submit ct s = (s, Except.error ("No guesses to submit"))) :=
  ⟨fun _ _ _ hf => addGuess_eq_notFound hf,
   fun _ _ _ _ hf hany => addGuess_eq_dup hf hany,
   fun _ _ he => submit_eq_empty he⟩

/-- Claim C5 witness: the three failure modes on concrete rounds. -/
theorem claim_C5_witness :
    addGuess clD sRound ("Atlantis") = (sRound, Except.error ("Country not found")) ∧
    addGuess clD sG1 ("Spain") = (sG1, Except.error ("Already guessed")) ∧
    submit ctD sRound = (sRound, Except.error ("No guesses to submit")) :=
  ⟨claim_C5_errors_preserve_state.1 clD sRound ("Atlantis") (by decide),
   claim_C5_errors_preserve_state.2.1 clD sG1 ("Spain") spainC (by decide) (by decide),
   claim_C5_errors_preserve_state.2.2 ctD sRound (by decide)⟩

/-- Claim C6: `findCountryByName` depends only on the normalized input
(lowercase, strip diacritics and punctuation, collapse whitespace, trim);
the three Côte d\x27Ivoire spellings normalize identically and hence resolve
identically over any table; and any hit matched the canonical name or an
alias up to normalization. -/
theorem claim_C6_findExact_normalized :
    (∀ (t : List Country) (n₁ n₂ : String), normalizeName n₁ = normalizeName n₂ →
      findCountryByName n₁ t = findCountryByName n₂ t) ∧
    (∀ t : List Country,
      findCountryByName ("cote d\x27ivoire") t = findCountryByName ("Côte d\x27Ivoire") t ∧
      findCountryByName ("Côte d\x27Ivoire") t = findCountryByName ("COTE DIVOIRE") t) ∧
    (∀ (t : List Country) (n : String) (c : Country),
      findCountryByName n t = some c →
        normalizeName c.name = normalizeName n ∨
        ∃ a ∈ c.aliases, normalizeName a = normalizeName n) := by
  refine ⟨findCountryByName_congr, ?_, ?_⟩
  · intro t
    exact ⟨findCountryByName_congr t _ _ (by decide),
           findCountryByName_congr t _ _ (by decide)⟩
  · intro t n c hf
    have hp := List.find?_some hf
    simp only [countryMatches, Bool.or_eq_true, beq_iff_eq, List.any_eq_true] at hp
    exact hp

/-- Claim C6 witness: the accented and unaccented spellings resolve to the
same country over a concrete table. -/
theorem claim_C6_witness :
    findCountryByName ("cote d\x27ivoire") civT = findCountryByName ("Côte d\x27Ivoire") civT ∧
    findCountryByName ("cote d\x27ivoire") civT = some civC :=
  ⟨(claim_C6_findExact_normalized.2.1 civT).1, by decide⟩

/-- Claim C8: in every reachable round state the guess list holds at most
one guess per country code: `startNewRound` clears it, `addGuess` rejects
duplicates, `removeGuess` only deletes, and the reveal loops append a
synthesized guess only for codes with no existing guess. -/
theorem claim_C8_guesses_unique (ct : CountryTable) (nt : NeighborTable)
    (s : GameState) (h : Reachable ct nt s) : (codesOf s.guesses).Nodup := by
  induction h with
  | start c => simp [startNewRound, codesOf]
  | add s name _ ih => exact addGuess_nodup _ _ _ ih
  | remove s code _ ih => exact removeGuess_nodup _ _ ih
  | submitStep s _ ih => exact submit_nodup _ _ ih
  | revealStep s _ ih =>
    rw [reveal_guesses_eq]
    exact revealAll_nodup _ _ _ _ ih
  | next s c _ ih => simp [nextRound, startNewRound, codesOf]

/-- Claim C8 witness: a concrete reachable state (round started, Spain
guessed, round submitted) has duplicate-free guess codes. -/
theorem claim_C8_witness : (codesOf (submit ctD sG1).1.guesses).Nodup :=
  claim_C8_guesses_unique ctD ntD _
    (Reachable.submitStep _ (Reachable.add _ ("Spain") (Reachable.start franceC)))

/-- Claim C7 (amended): for every non-empty query, `searchCountries`
returns exactly the table entries outside `excludeCodes` whose normalized
name or some normalized alias contains the normalized query, ordered under
the comparator preorder: exact normalized-name matches first, the rest
ascending by normalized (not canonical) name length, ties in table order. -/
theorem claim_C7_search (q : String) (hq : q ≠ "") (excl : List String)
    (tbl : CountryTable) :
    (∀ c : Country, c ∈ searchCountries q excl tbl ↔
      ∃ p ∈ tbl, p.1 ∉ excl ∧
        (strIncludes (normalizeName p.2.name) (normalizeName q) = true ∨
         ∃ a ∈ p.2.aliases, strIncludes (normalizeName a) (normalizeName q) = true) ∧
        c = { p.2 with code := p.1 }) ∧
    List.Sorted (searchLe (normalizeName q)) (searchCountries q excl tbl) := by
  have hq' : (q == "") = false := beq_eq_false_iff_ne.mpr hq
  constructor
  · intro c
    unfold searchCountries
    rw [hq']
    simp only [Bool.false_eq_true, if_false]
    rw [List.mem_insertionSort]
    unfold searchMatches
    rw [List.mem_filterMap]
    constructor
    · rintro ⟨p, hp, hf⟩
      refine ⟨p, hp, ?_⟩
      by_cases he : excl.contains p.1 = true
      · rw [if_pos he] at hf
        exact absurd hf (by simp)
      · rw [if_neg he] at hf
        have hex : p.1 ∉ excl := fun hm => he (contains_eq_true_of_mem hm)
        by_cases h1 : strIncludes (normalizeName p.2.name) (normalizeName q) = true
        · rw [if_pos h1] at hf
          exact ⟨hex, Or.inl h1, (Option.some.inj hf).symm⟩
        · rw [if_neg h1] at hf
          by_cases h2 : (p.2.aliases.any
              (fun a => strIncludes (normalizeName a) (normalizeName q))) = true
          · rw [if_pos h2] at hf
            exact ⟨hex, Or.inr (by simpa using List.any_eq_true.mp h2),
              (Option.some.inj hf).symm⟩
          · rw [if_neg h2] at hf
            exact absurd hf (by simp)
    · rintro ⟨p, hp, hex, hmatch, rfl⟩
      refine ⟨p, hp, ?_⟩
      rw [if_neg (by simpa using hex)]
      rcases hmatch with h1 | h2
      · rw [if_pos h1]
      · by_cases h1 : strIncludes (normalizeName p.2.name) (normalizeName q) = true
        · rw [if_pos h1]
        · rw [if_neg h1, if_pos (List.any_eq_true.mpr (by simpa using h2))]
  · unfold searchCountries
    rw [hq']
    simp only [Bool.false_eq_true, if_false]
    exact List.sorted_insertionSort _ _

/-- Claim C7 counterexample: with the one-letter query over a Cuba / U.A.E. table,
neither match is exact, yet U.A.E. (canonical length 6, normalized length 3)
is returned before Cuba (canonical length 4): the order is by normalized
name length, not canonical name length. -/
theorem claim_C7_cex :
    searchCountries ("a") [] tblC =
      [{ code := "ARE", name := "U.A.E.", aliases := [] },
       { code := "CUB", name := "Cuba", aliases := [] }] ∧
    ("U.A.E.".length = 6 ∧ "Cuba".length = 4) ∧
    normalizeName ("U.A.E.") ≠ normalizeName ("a") ∧
    normalizeName ("Cuba") ≠ normalizeName ("a") := by
  decide

/-- Claim C7 witness. -/
theorem claim_C7_witness :
    (({ code := "ARE", name := "U.A.E.", aliases := [] } : Country) ∈
      searchCountries ("a") [] tblC) ∧
    List.Sorted (searchLe (normalizeName ("a"))) (searchCountries ("a") [] tblC) :=
  ⟨((claim_C7_search ("a") (by decide) [] tblC).1 _).mpr
      ⟨("ARE", uaeC), by decide, by decide, Or.inl (by decide), by decide⟩,
   (claim_C7_search ("a") (by decide) [] tblC).2⟩

/-- Claim C1: from a `Guessing`-state round with at least one guess, when
every answer code is present in the country table, submit succeeds,
`totalCorrect` equals the answer-set size, and every answer code has a
correct (locked) guess in the final guess list. -/
theorem claim_C1_submit_resolves (ct : CountryTable) (s : GameState)
    (h : ValidGuessing s) (hne : s.guesses ≠ [])
    (hct : ∀ code ∈ s.neighbors, (tableGet ct code).isSome = true) :
    ∃ r : SubmitOk, (submit ct s).2 = Except.ok r ∧
      r.totalCorrect = s.neighbors.length ∧
      ∀ code ∈ s.neighbors, ∃ g ∈ (submit ct s).1.guesses,
        g.code = code ∧ g.correct = true := by
  rw [submit_spec ct s h hne]
  refine ⟨_, rfl, ?_, ?_⟩
  · show numCorrect s.guesses + missedCount s.guesses s.neighbors = s.neighbors.length
    exact gains_add_missed s h
  · exact answer_has_guess ct s h hct

/-- Claim C1 witness: France round with Spain and Portugal guessed. -/
theorem claim_C1_witness :
    ∃ r : SubmitOk, (submit ctD sG2).2 = Except.ok r ∧
      r.totalCorrect = sG2.neighbors.length ∧
      ∀ code ∈ sG2.neighbors, ∃ g ∈ (submit ctD sG2).1.guesses,
        g.code = code ∧ g.correct = true :=
  claim_C1_submit_resolves ctD sG2 (by decide) (by decide) (by decide)

/-- Claim C2: a successful submit moves the session score by exactly gains
minus losses, where gains counts the (distinct) correct guesses and losses
counts the (distinct) incorrect guesses plus one per missed answer code. -/
theorem claim_C2_score_delta (ct : CountryTable) (s : GameState)
    (h : ValidGuessing s) (hne : s.guesses ≠ []) :
    (submit ct s).1.score = s.score + ((numCorrect s.guesses : Int) -
      ((numWrong s.guesses + missedCount s.guesses s.neighbors : Nat) : Int)) ∧
    (submit ct s).2 = Except.ok
      { gains := numCorrect s.guesses,
        losses := numWrong s.guesses + missedCount s.guesses s.neighbors,
        totalCorrect := numCorrect s.guesses + missedCount s.guesses s.neighbors,
        totalNeighbors := s.neighbors.length } := by
  rw [submit_spec ct s h hne]
  exact ⟨rfl, rfl⟩

/-- Claim C2 witness. -/
theorem claim_C2_witness :
    (submit ctD sG2).1.score = sG2.score + ((numCorrect sG2.guesses : Int) -
      ((numWrong sG2.guesses + missedCount sG2.guesses sG2.neighbors : Nat) : Int)) ∧
    (submit ctD sG2).2 = Except.ok
      { gains := numCorrect sG2.guesses,
        losses := numWrong sG2.guesses + missedCount sG2.guesses sG2.neighbors,
        totalCorrect := numCorrect sG2.guesses + missedCount sG2.guesses sG2.neighbors,
        totalNeighbors := sG2.neighbors.length } :=
  claim_C2_score_delta ctD sG2 (by decide) (by decide)

/-- Claim C10: `progress.found` counts only the player's own correct
guesses: after submit it equals the number of correct guesses the player had
made (never exceeding the player-issued guess count), while `correctCount`
additionally counts every auto-revealed neighbor. -/
theorem claim_C10_found_player_only (ct : CountryTable) (s : GameState)
    (h : ValidGuessing s) (hne : s.guesses ≠ []) :
    (getState (submit ct s).1).progressFound = numCorrect s.guesses ∧
    (getState (submit ct s).1).progressFound ≤ s.guesses.length ∧
    (getState (submit ct s).1).correctCount =
      (getState (submit ct s).1).progressFound +
        missedCount s.guesses s.neighbors := by
  rw [submit_spec ct s h hne]
  refine ⟨?_, ?_, ?_⟩
  · show (codesOf (s.guesses.filter (fun g => g.correct))).length = numCorrect s.guesses
    simp [codesOf, numCorrect]
  · show (codesOf (s.guesses.filter (fun g => g.correct))).length ≤ s.guesses.length
    simp only [codesOf, List.length_map]
    exact s.guesses.length_filter_le _
  · show (codesOf (s.guesses.filter (fun g => g.correct)) ++
        missedOf s.guesses s.neighbors).length =
      (codesOf (s.guesses.filter (fun g => g.correct))).length +
        missedCount s.guesses s.neighbors
    simp [missedCount]

/-- Claim C10 witness. -/
theorem claim_C10_witness :
    (getState (submit ctD sG2).1).progressFound = numCorrect sG2.guesses ∧
    (getState (submit ctD sG2).1).progressFound ≤ sG2.guesses.length ∧
    (getState (submit ctD sG2).1).correctCount =
      (getState (submit ctD sG2).1).progressFound +
        missedCount sG2.guesses sG2.neighbors :=
  claim_C10_found_player_only ctD sG2 (by decide) (by decide)

/-- The non-empty branch of `submit`, as one equation. -/
theorem submit_eq_nonempty {ct : CountryTable} {s : GameState}
    (hne : s.guesses.isEmpty = false) :
    submit ct s =
      ({ s with
          submitted := true
          revealed := true
          guesses := (submitAcc ct s).guesses
          correctGuesses := (submitAcc ct s).cg
          userCorrectGuesses := (submitTally s).ucg
          incorrectGuesses := (submitTally s).icg
          score := s.score + (((submitTally s).gains : Int) -
            ((submitAcc ct s).losses : Int))
          lastRoundGains := (submitTally s).gains
          lastRoundLosses := (submitAcc ct s).losses },
       Except.ok { gains := (submitTally s).gains,
                   losses := (submitAcc ct s).losses,
                   totalCorrect := (submitAcc ct s).cg.length,
                   totalNeighbors := s.neighbors.length }) := by
  unfold submit
  rw [hne]
  simp

/-- Claim C9: submitting a second time right after a successful submit
succeeds again with `gains = 0` and `losses = 0` and leaves the score
unchanged — double submission is score-idempotent (assuming, as the data
invariants guarantee, that every answer code is in the country table). -/
theorem claim_C9_double_submit (ct : CountryTable) (s : GameState)
    (h : ValidGuessing s) (hne : s.guesses ≠ [])
    (hct : ∀ code ∈ s.neighbors, (tableGet ct code).isSome = true) :
    (submit ct (submit ct s).1).2 = Except.ok
      { gains := 0, losses := 0,
        totalCorrect := (submit ct s).1.correctGuesses.length,
        totalNeighbors := s.neighbors.length } ∧
    (submit ct (submit ct s).1).1.score = (submit ct s).1.score := by
  have hS := submit_spec ct s h hne
  have h1g : (submit ct s).1.guesses =
      s.guesses ++ synthOf ct s.guesses s.neighbors := by rw [hS]
  have h1cg : (submit ct s).1.correctGuesses =
      codesOf (s.guesses.filter (fun g => g.correct)) ++
        missedOf s.guesses s.neighbors := by rw [hS]
  have h1icg : (submit ct s).1.incorrectGuesses =
      codesOf (s.guesses.filter (fun g => !g.correct)) := by rw [hS]
  have h1n : (submit ct s).1.neighbors = s.neighbors := by rw [hS]
  have hcount : ∀ g ∈ (submit ct s).1.guesses,
      (g.correct = true → g.code ∈ (submit ct s).1.correctGuesses) ∧
      (g.correct = false → g.code ∈ (submit ct s).1.incorrectGuesses) := by
    intro g hg
    rw [h1g] at hg
    constructor
    · intro hc
      rw [h1cg]
      rcases List.mem_append.mp hg with hg | hg
      · apply List.mem_append_left
        simp only [codesOf, List.mem_map]
        exact ⟨g, List.mem_filter.mpr ⟨hg, hc⟩, rfl⟩
      · exact List.mem_append_right _ (synthOf_mem hg).1
    · intro hc
      rw [h1icg]
      rcases List.mem_append.mp hg with hg | hg
      · simp only [codesOf, List.mem_map]
        exact ⟨g, List.mem_filter.mpr ⟨hg, by simp [hc]⟩, rfl⟩
      · exact absurd (synthOf_mem hg).2 (by simp [hc])
  have hTnoop : submitTally (submit ct s).1 =
      { cg := (submit ct s).1.correctGuesses,
        ucg := (submit ct s).1.userCorrectGuesses,
        icg := (submit ct s).1.incorrectGuesses, gains := 0, losses := 0 } := by
    unfold submitTally
    exact processGuesses_noop _ _ hcount
  have hhas : ∀ code ∈ (submit ct s).1.neighbors,
      ∃ g ∈ (submit ct s).1.guesses, g.code = code := by
    intro code hc
    rw [h1n] at hc
    rw [h1g]
    obtain ⟨g, hm, he, _⟩ := answer_has_guess ct s h hct code hc
    exact ⟨g, hm, he⟩
  have hAnoop : submitAcc ct (submit ct s).1 =
      { guesses := (submit ct s).1.guesses,
        cg := (submit ct s).1.correctGuesses, losses := 0 } := by
    unfold submitAcc
    rw [hTnoop]
    exact autoReveal_noop ct _ _ hhas
  have hne1 : (submit ct s).1.guesses.isEmpty = false := by
    cases hgl : s.guesses with
    | nil => exact absurd hgl hne
    | cons a l =>
      rw [h1g, hgl]
      rfl
  constructor
  · rw [submit_eq_nonempty hne1]
    show Except.ok _ = _
    rw [hTnoop, hAnoop, h1n]
  · rw [submit_eq_nonempty hne1]
    show (submit ct s).1.score + (((submitTally (submit ct s).1).gains : Int) -
      ((submitAcc ct (submit ct s).1).losses : Int)) = (submit ct s).1.score
    rw [hTnoop, hAnoop]
    simp

/-- Claim C9 witness. -/
theorem claim_C9_witness :
    (submit ctD (submit ctD sG2).1).2 = Except.ok
      { gains := 0, losses := 0,
        totalCorrect := (submit ctD sG2).1.correctGuesses.length,
        totalNeighbors := sG2.neighbors.length } ∧
    (submit ctD (submit ctD sG2).1).1.score = (submit ctD sG2).1.score :=
  claim_C9_double_submit ctD sG2 (by decide) (by decide) (by decide)

end GeoGames
